import Mathlib

/-!
# Verification of the virtual-memory core (frame allocator + page table)

Shallow embedding of `src/os4/src/mm/frame_allocator.rs` and
`src/os4/src/mm/page_table.rs`.  Machine integers (`usize`, `u8`) are
modelled as `Nat`; the `as u8` cast is `% 256`.  Fallible operations
(Rust `panic!`/`assert!`/`unwrap` on `None`) are modelled as `Option`,
where `none` is the fatal outcome.  Physical memory is modelled as two
total functions (the PTE-array view `get_pte_array` and the byte view
`get_bytes_array` of a frame); the two views alias in the machine, but
no claim mixes them on the same frame, so they are kept as separate
fields.  Rust `Vec` push/pop act on the tail, and the model keeps `Vec`
order: push is `++ [x]`, pop takes `getLast?`/`dropLast`.
-/

/-! ## Page-table entries (`PageTableEntry`, `PTEFlags`) -/

/-- Flag `PTEFlags::V`, bit 0 of the flags byte. -/
def PTE_V : Nat := 1

/-- Encode `PageTableEntry::new(ppn, flags)`: `bits = ppn.0 << 10 | flags.bits as usize`. -/
def pteNew (ppn flags : Nat) : Nat := (ppn <<< 10) ||| flags

/-- Entry `PageTableEntry::empty()`: the all-zero entry. -/
def pteEmpty : Nat := 0

/-- Field `PageTableEntry::ppn()`: `bits >> 10 & ((1 << 44) - 1)`. -/
def ptePpn (bits : Nat) : Nat := (bits >>> 10) &&& (2 ^ 44 - 1)

/-- Decode `PTEFlags::from_bits` for a `u8` argument: the bitflags check that no
bit outside `Self::all() = 0xFF` is set (`b & all == b`). -/
def PTEFlags.from_bits (b : Nat) : Option Nat :=
  if b &&& 255 = b then some b else none

/-- Field `PageTableEntry::flags()`: `PTEFlags::from_bits(self.bits as u8).unwrap()`.
The `unwrap` default is unreachable (theorem `C9_flags_decode_total`). -/
def pteFlags (bits : Nat) : Nat := (PTEFlags.from_bits (bits % 256)).getD 0

/-- Test `PageTableEntry::is_valid()`: `(flags() & PTEFlags::V) != PTEFlags::empty()`. -/
def pteIsValid (bits : Nat) : Bool := pteFlags bits &&& PTE_V != 0

/-! ### PTE field lemmas -/

theorem pteFlags_eq (bits : Nat) : pteFlags bits = bits % 256 := by
  have h : (bits % 256) &&& 255 = bits % 256 := by
    have h8 : (bits % 256) &&& (2 ^ 8 - 1) = (bits % 256) % 2 ^ 8 :=
      Nat.and_pow_two_sub_one_eq_mod (bits % 256) 8
    simpa using h8
  simp [pteFlags, PTEFlags.from_bits, h]

/-- Reduction of `%` over `lor`: both sides are masks with `2^k - 1`. -/
theorem lor_mod_two_pow (a b k : Nat) :
    (a ||| b) % 2 ^ k = (a % 2 ^ k) ||| (b % 2 ^ k) := by
  simp only [← Nat.and_pow_two_sub_one_eq_mod]
  exact Nat.and_distrib_right a b (2 ^ k - 1)

theorem shiftLeft_ten_mod_two_pow_eight (p : Nat) : (p <<< 10) % 2 ^ 8 = 0 := by
  rw [Nat.shiftLeft_eq]
  have h : p * 2 ^ 10 = (p * 4) * 2 ^ 8 := by ring
  rw [h]
  exact Nat.mul_mod_left _ _

theorem ptePpn_pteNew {p f : Nat} (hp : p < 2 ^ 44) (hf : f < 1024) :
    ptePpn (pteNew p f) = p := by
  apply Nat.eq_of_testBit_eq
  intro i
  rw [ptePpn, pteNew]
  simp only [Nat.testBit_and, Nat.testBit_shiftRight, Nat.testBit_or,
    Nat.testBit_shiftLeft, Nat.testBit_two_pow_sub_one]
  have hf0 : f.testBit (10 + i) = false := by
    apply Nat.testBit_lt_two_pow
    calc f < 1024 := hf
      _ = 2 ^ 10 := rfl
      _ ≤ 2 ^ (10 + i) := Nat.pow_le_pow_right (by norm_num) (by omega)
  rw [hf0, show 10 + i - 10 = i from by omega]
  by_cases h44 : i < 44
  · simp [h44, ge_iff_le, Nat.le_add_right]
  · have hpi : p.testBit i = false := by
      apply Nat.testBit_lt_two_pow
      exact lt_of_lt_of_le hp (Nat.pow_le_pow_right (by norm_num) (by omega))
    simp [h44, hpi]

theorem pteFlags_pteNew {p f : Nat} (hf : f < 256) :
    pteFlags (pteNew p f) = f := by
  rw [pteFlags_eq, pteNew, show (256 : Nat) = 2 ^ 8 from rfl, lor_mod_two_pow,
    shiftLeft_ten_mod_two_pow_eight, Nat.mod_eq_of_lt (by simpa using hf)]
  exact Nat.zero_or f

theorem pteIsValid_eq (bits : Nat) : pteIsValid bits = (bits % 2 == 1) := by
  have h : (bits % 256) &&& 1 = bits % 2 := by
    have h1 : (bits % 256) &&& (2 ^ 1 - 1) = (bits % 256) % 2 ^ 1 :=
      Nat.and_pow_two_sub_one_eq_mod (bits % 256) 1
    have h2 : bits % 256 % 2 = bits % 2 := Nat.mod_mod_of_dvd bits (by norm_num)
    simpa [h2] using h1
  simp only [pteIsValid, pteFlags_eq, PTE_V, h]
  rcases Nat.mod_two_eq_zero_or_one bits with h2 | h2 <;> simp [h2]

theorem pteIsValid_pteNew_odd {p f : Nat} (hf : f % 2 = 1) :
    pteIsValid (pteNew p f) = true := by
  rw [pteIsValid_eq, pteNew]
  have h1 : (p <<< 10 ||| f) % 2 = 1 := by
    have hd : (p <<< 10 ||| f) % 2 ^ 1 = (p <<< 10) % 2 ^ 1 ||| f % 2 ^ 1 :=
      lor_mod_two_pow (p <<< 10) f 1
    have h0 : (p <<< 10) % 2 ^ 1 = 0 := by
      rw [Nat.shiftLeft_eq]
      have h : p * 2 ^ 10 = (p * 2 ^ 9) * 2 ^ 1 := by ring
      rw [h]
      exact Nat.mul_mod_left _ _
    have hf1 : f % 2 ^ 1 = 1 := by simpa using hf
    have : (p <<< 10 ||| f) % 2 ^ 1 = 1 := by
      rw [hd, h0, hf1]
      exact Nat.zero_or 1
    simpa using this
  simp [h1]

/-! ## Frame allocator (`StackFrameAllocator`) -/

/-- State `StackFrameAllocator`: bump pointer `current`, exclusive bound `end`,
LIFO pool `recycled` (Rust `Vec`, top of the stack at the tail). -/
structure StackFrameAllocator where
  current : Nat
  end_ : Nat
  recycled : List Nat
deriving DecidableEq, Repr

/-- Operation `StackFrameAllocator::alloc`: pop the recycled pool if non-empty, else
bump `current` unless the range is exhausted. -/
def StackFrameAllocator.alloc (fa : StackFrameAllocator) :
    Option (Nat × StackFrameAllocator) :=
  match fa.recycled.getLast? with
  | some ppn => some (ppn, { fa with recycled := fa.recycled.dropLast })
  | none =>
    if fa.current = fa.end_ then none
    else some (fa.current, { fa with current := fa.current + 1 })

/-- Operation `StackFrameAllocator::dealloc`: `none` models the
`panic!("Frame ppn={:#x} has not been allocated!")` validity check. -/
def StackFrameAllocator.dealloc (fa : StackFrameAllocator) (ppn : Nat) :
    Option StackFrameAllocator :=
  if fa.current ≤ ppn ∨ ppn ∈ fa.recycled then none
  else some { fa with recycled := fa.recycled ++ [ppn] }

/-- Operation `StackFrameAllocator::remain_num`: `end - current + recycled.len()`. -/
def StackFrameAllocator.remain_num (fa : StackFrameAllocator) : Nat :=
  fa.end_ - fa.current + fa.recycled.length

/-- A frame number the allocator can still hand out: in the recycled pool
or in `[current, end)`. -/
def Avail (fa : StackFrameAllocator) (q : Nat) : Prop :=
  q ∈ fa.recycled ∨ (fa.current ≤ q ∧ q < fa.end_)

instance (fa : StackFrameAllocator) (q : Nat) : Decidable (Avail fa q) := by
  unfold Avail; infer_instance

/-- Well-formedness of reachable allocator states: every recycled frame was
issued before (`< current`), no double entry in the pool, the managed range
is ordered, and frame numbers fit the 44-bit PPN field. -/
def FAinv (fa : StackFrameAllocator) : Prop :=
  (∀ r ∈ fa.recycled, r < fa.current) ∧ fa.recycled.Nodup ∧
    fa.current ≤ fa.end_ ∧ fa.end_ ≤ 2 ^ 44

instance (fa : StackFrameAllocator) : Decidable (FAinv fa) := by
  unfold FAinv; infer_instance

theorem alloc_spec {fa : StackFrameAllocator} {p : Nat} {fa' : StackFrameAllocator}
    (hinv : FAinv fa) (h : fa.alloc = some (p, fa')) :
    Avail fa p ∧ p < 2 ^ 44 ∧ FAinv fa' ∧
      (∀ q, Avail fa' q → Avail fa q ∧ q ≠ p) ∧
      fa.remain_num = fa'.remain_num + 1 ∧
      p < fa'.current ∧ p ∉ fa'.recycled ∧ fa'.end_ = fa.end_ := by
  obtain ⟨hlt, hnd, hce, he44⟩ := hinv
  rcases List.eq_nil_or_concat fa.recycled with hr | ⟨l, b, hr⟩
  · rw [StackFrameAllocator.alloc, hr] at h
    simp only [List.getLast?_nil] at h
    by_cases hc : fa.current = fa.end_
    · simp [hc] at h
    · simp only [hc, if_false, Option.some.injEq, Prod.mk.injEq] at h
      obtain ⟨hp, hfa⟩ := h
      subst hp
      subst hfa
      refine ⟨Or.inr ⟨le_refl _, by omega⟩, by omega, ⟨?_, ?_, ?_, ?_⟩, ?_, ?_, ?_, ?_, ?_⟩
      · intro r hr2
        dsimp only at hr2 ⊢
        simp at hr2
      · dsimp only
        exact List.nodup_nil
      · dsimp only; omega
      · dsimp only; exact he44
      · intro q hq
        rcases hq with hq | hq
        · dsimp only at hq
          simp at hq
        · dsimp only at hq
          exact ⟨Or.inr ⟨by omega, hq.2⟩, by omega⟩
      · simp only [StackFrameAllocator.remain_num, hr, List.length_nil]
        omega
      · dsimp only; omega
      · dsimp only
        simp
      · rfl
  · rw [List.concat_eq_append] at hr
    rw [StackFrameAllocator.alloc, hr] at h
    simp only [List.getLast?_concat, Option.some.injEq, Prod.mk.injEq] at h
    obtain ⟨hp, hfa⟩ := h
    subst hp
    subst hfa
    have hbmem : b ∈ fa.recycled := by rw [hr]; exact List.mem_append_right _ (by simp)
    have hnd' : (l ++ [b]).Nodup := by rw [← hr]; exact hnd
    have hbnotl : b ∉ l := by
      intro hc
      rcases List.nodup_append.mp hnd' with ⟨_, _, hdisj⟩
      exact hdisj hc (by simp)
    have hlnd : l.Nodup := (List.nodup_append.mp hnd').1
    have hmeml : ∀ q, q ∈ l → q ∈ fa.recycled := by
      intro q hq; rw [hr]; exact List.mem_append_left _ hq
    refine ⟨Or.inl hbmem, ?_, ⟨?_, ?_, hce, he44⟩, ?_, ?_, ?_, ?_, ?_⟩
    · have := hlt b hbmem; omega
    · intro r hr2
      simp only [hr, List.dropLast_concat] at hr2
      exact hlt r (hmeml r hr2)
    · simp only [hr, List.dropLast_concat]
      exact hlnd
    · intro q hq
      rcases hq with hq | hq
      · simp only [hr, List.dropLast_concat] at hq
        exact ⟨Or.inl (hmeml q hq), fun hc => hbnotl (hc ▸ hq)⟩
      · simp only at hq
        refine ⟨Or.inr hq, ?_⟩
        have := hlt b hbmem; omega
    · simp only [StackFrameAllocator.remain_num, hr, List.dropLast_concat,
        List.length_append, List.length_cons, List.length_nil]
      omega
    · simp only
      exact hlt b hbmem
    · simp only [hr, List.dropLast_concat]
      exact hbnotl
    · rfl

/-- C3 — `dealloc(n)` is fatal iff `n >= current` or `n` is already in the
recycled pool; otherwise it appends `n` to the pool and changes nothing else. -/
theorem C3_dealloc_spec (fa : StackFrameAllocator) (p : Nat) :
    (fa.dealloc p = none ↔ (fa.current ≤ p ∨ p ∈ fa.recycled)) ∧
      (fa.dealloc p).elim True
        (fun fa' => fa' = ⟨fa.current, fa.end_, fa.recycled ++ [p]⟩) := by
  constructor
  · constructor
    · intro h
      by_contra hc
      rw [StackFrameAllocator.dealloc, if_neg hc] at h
      exact Option.some_ne_none _ h
    · intro h
      rw [StackFrameAllocator.dealloc, if_pos h]
  · by_cases h : fa.current ≤ p ∨ p ∈ fa.recycled
    · rw [StackFrameAllocator.dealloc, if_pos h]; trivial
    · rw [StackFrameAllocator.dealloc, if_neg h]
      exact rfl

/-- C4 — `alloc()` pops the most recently recycled frame when the pool is
non-empty; with an empty pool it fails exactly when `current == end`, and
otherwise returns `current` and advances it by one. -/
theorem C4_alloc_spec (fa : StackFrameAllocator) (p : Nat) (rest : List Nat) :
    (fa.recycled = rest ++ [p] →
        fa.alloc = some (p, ⟨fa.current, fa.end_, rest⟩)) ∧
      (fa.recycled = [] → fa.current = fa.end_ → fa.alloc = none) ∧
      (fa.recycled = [] → fa.current ≠ fa.end_ →
        fa.alloc = some (fa.current, ⟨fa.current + 1, fa.end_, []⟩)) := by
  refine ⟨?_, ?_, ?_⟩
  · intro h
    rw [StackFrameAllocator.alloc, h]
    simp [List.getLast?_concat]
  · intro h hc
    rw [StackFrameAllocator.alloc, h]
    simp [hc]
  · intro h hc
    rw [StackFrameAllocator.alloc, h]
    simp [hc]

/-- Witness for C4 at concrete allocator states: a pop from the pool,
exhaustion, and a bump of `current`. -/
theorem C4_alloc_spec_witness :
    StackFrameAllocator.alloc ⟨3, 10, [7, 5]⟩ = some (5, ⟨3, 10, [7]⟩) ∧
      StackFrameAllocator.alloc ⟨10, 10, []⟩ = none ∧
      StackFrameAllocator.alloc ⟨3, 10, []⟩ = some (3, ⟨4, 10, []⟩) :=
  ⟨(C4_alloc_spec ⟨3, 10, [7, 5]⟩ 5 [7]).1 rfl,
    (C4_alloc_spec ⟨10, 10, []⟩ 0 []).2.1 rfl rfl,
    (C4_alloc_spec ⟨3, 10, []⟩ 0 []).2.2 rfl (by decide)⟩

/-- C9 — decoding the flags of a PTE is total: the `from_bits` call inside
`flags()` succeeds on the low byte of every representable bit pattern, and
`flags()` returns exactly that byte. -/
theorem C9_flags_decode_total (bits : Nat) :
    PTEFlags.from_bits (bits % 256) = some (bits % 256) ∧
      pteFlags bits = bits % 256 := by
  have h : (bits % 256) &&& 255 = bits % 256 := by
    have := Nat.and_pow_two_sub_one_eq_mod (bits % 256) 8
    simpa using this
  exact ⟨by rw [PTEFlags.from_bits, if_pos h], pteFlags_eq bits⟩

/-- Counterexample for C2: bit 8 (the first reserved bit between the flag
byte and the frame-number field) is dropped by the round-trip, so the
entry `bits = 256` does not re-encode to itself. -/
theorem C2_counterexample :
    pteNew (ptePpn 256) (pteFlags 256) ≠ 256 := by decide

/-- C2 (amended) — the round-trip `new(e.ppn(), e.flags())` keeps exactly
the 8 flag bits and the 44-bit frame field (bits 10–53) and clears the
reserved bits 8–9 and everything from bit 54 up: it equals
`e &&& (((2^44 - 1) <<< 10) ||| 255)`. -/
theorem C2_roundtrip_mask (e : Nat) :
    pteNew (ptePpn e) (pteFlags e) = e &&& (((2 ^ 44 - 1) <<< 10) ||| 255) := by
  rw [pteFlags_eq, pteNew, ptePpn,
    show (256 : Nat) = 2 ^ 8 from rfl, show (255 : Nat) = 2 ^ 8 - 1 from rfl]
  apply Nat.eq_of_testBit_eq
  intro i
  simp only [Nat.testBit_or, Nat.testBit_and, Nat.testBit_shiftLeft,
    Nat.testBit_shiftRight, Nat.testBit_mod_two_pow, Nat.testBit_two_pow_sub_one,
    ge_iff_le]
  by_cases h10 : 10 ≤ i
  · have h8 : ¬ i < 8 := by omega
    rw [show 10 + (i - 10) = i from by omega]
    by_cases h44 : i - 10 < 44 <;> simp [h10, h8, h44]
  · by_cases h8 : i < 8 <;> simp [h10, h8]

/-- C6 — `remain_num()` equals `end - current + recycled.len()`, drops by
exactly 1 on a successful `alloc`, grows by exactly 1 on a non-fatal
`dealloc`, and an `alloc` immediately followed by `dealloc` of the frame it
returned is non-fatal and restores `remain_num()`. -/
theorem C6_remain_num (fa : StackFrameAllocator) (p : Nat) (hinv : FAinv fa) :
    fa.remain_num = fa.end_ - fa.current + fa.recycled.length ∧
      fa.alloc.elim True (fun r =>
        fa.remain_num = r.2.remain_num + 1 ∧
          (r.2.dealloc r.1).elim False
            (fun fa2 => fa2.remain_num = fa.remain_num)) ∧
      (fa.dealloc p).elim True
        (fun fa' => fa'.remain_num = fa.remain_num + 1) := by
  refine ⟨rfl, ?_, ?_⟩
  · rcases halloc : fa.alloc with _ | ⟨a, fa1⟩
    · trivial
    · obtain ⟨-, -, -, -, hdec, hlt1, hnotmem1, -⟩ := alloc_spec hinv halloc
      have hcond : ¬ (fa1.current ≤ a ∨ a ∈ fa1.recycled) := by
        intro hco
        rcases hco with hco | hco
        · omega
        · exact hnotmem1 hco
      refine ⟨hdec, ?_⟩
      rw [StackFrameAllocator.dealloc, if_neg hcond]
      simp only [Option.elim, StackFrameAllocator.remain_num, List.length_append,
        List.length_cons, List.length_nil] at hdec ⊢
      omega
  · rcases hde : fa.dealloc p with _ | fa'
    · trivial
    · rw [StackFrameAllocator.dealloc] at hde
      by_cases hco : fa.current ≤ p ∨ p ∈ fa.recycled
      · rw [if_pos hco] at hde
        exact absurd hde (by simp)
      · rw [if_neg hco, Option.some.injEq] at hde
        subst hde
        simp only [Option.elim, StackFrameAllocator.remain_num, List.length_append,
          List.length_cons, List.length_nil]
        omega

/-- Witness for C6 at the concrete allocator state
`current = 3, end = 10, recycled = [2]` and `dealloc(1)`. -/
theorem C6_remain_num_witness :
    StackFrameAllocator.remain_num ⟨3, 10, [2]⟩ = 10 - 3 + [2].length ∧
      (StackFrameAllocator.alloc ⟨3, 10, [2]⟩).elim True (fun r =>
        StackFrameAllocator.remain_num ⟨3, 10, [2]⟩ = r.2.remain_num + 1 ∧
          (r.2.dealloc r.1).elim False
            (fun fa2 => fa2.remain_num = StackFrameAllocator.remain_num ⟨3, 10, [2]⟩)) ∧
      (StackFrameAllocator.dealloc ⟨3, 10, [2]⟩ 1).elim True
        (fun fa' => fa'.remain_num = StackFrameAllocator.remain_num ⟨3, 10, [2]⟩ + 1) :=
  C6_remain_num ⟨3, 10, [2]⟩ 1 (by decide)

/-! ## Physical memory and kernel state -/

/-- Physical memory: `pte p i` is slot `i` of `p.get_pte_array()`,
`byte p o` is byte `o` of `p.get_bytes_array()`. -/
structure Mem where
  pte : Nat → Nat → Nat
  byte : Nat → Nat → Nat

/-- Write one page-table entry (`*pte = value` through `get_pte_array`). -/
def writePte (m : Mem) (p i v : Nat) : Mem :=
  { m with pte := fun q j => if q = p ∧ j = i then v else m.pte q j }

/-- Zeroing in `FrameTracker::new` (page cleaning): zero every byte of the frame
(hence also the aliased PTE-array view). -/
def zeroFrame (m : Mem) (p : Nat) : Mem :=
  { pte := fun q i => if q = p then 0 else m.pte q i,
    byte := fun q o => if q = p then 0 else m.byte q o }

/-- Kernel-side state threaded through the page-table operations: physical
memory plus the global `FRAME_ALLOCATOR`. -/
structure KState where
  mem : Mem
  fa : StackFrameAllocator

/-- Wrapper `frame_alloc()`: `FRAME_ALLOCATOR.alloc().map(FrameTracker::new)` —
the returned frame is zeroed by `FrameTracker::new`. -/
def frame_alloc (σ : KState) : Option (Nat × KState) :=
  match σ.fa.alloc with
  | none => none
  | some (p, fa') => some (p, { mem := zeroFrame σ.mem p, fa := fa' })

theorem frame_alloc_some {σ : KState} {f : Nat} {σa : KState}
    (h : frame_alloc σ = some (f, σa)) :
    σ.fa.alloc = some (f, σa.fa) ∧ σa.mem = zeroFrame σ.mem f := by
  unfold frame_alloc at h
  rcases ha : σ.fa.alloc with _ | ⟨q, fa'⟩ <;> rw [ha] at h
  · exact absurd h (by simp)
  · simp only [Option.some.injEq, Prod.mk.injEq] at h
    obtain ⟨hqf, hσ⟩ := h
    subst hqf
    subst hσ
    exact ⟨rfl, rfl⟩

theorem writePte_pte_eq (m : Mem) (p i v : Nat) : (writePte m p i v).pte p i = v := by
  simp [writePte]

theorem writePte_pte_ne (m : Mem) (p i v q j : Nat) (h : ¬ (q = p ∧ j = i)) :
    (writePte m p i v).pte q j = m.pte q j := by
  simp [writePte, h]

theorem writePte_byte (m : Mem) (p i v q o : Nat) :
    (writePte m p i v).byte q o = m.byte q o := rfl

theorem zeroFrame_pte_eq (m : Mem) (p i : Nat) : (zeroFrame m p).pte p i = 0 := by
  simp [zeroFrame]

theorem zeroFrame_pte_ne (m : Mem) (p q i : Nat) (h : q ≠ p) :
    (zeroFrame m p).pte q i = m.pte q i := by
  simp [zeroFrame, h]

/-! ## Page table -/

/-- Table `PageTable`: root radix node plus the owned `FrameTracker`s (by frame
number, in `Vec` push order). -/
structure PageTable where
  root_ppn : Nat
  frames : List Nat

/-- Modelled from the spec: `VirtPageNum::indexes` (address.rs is not in
the source tree) — the three 9-bit index segments of a virtual page
number, most-significant first. -/
def vpnIndex (vpn i : Nat) : Nat := (vpn >>> (9 * (2 - i))) &&& 511

/-- One iteration of the `find_pte_create` walk at a non-leaf level: follow
a valid entry, or allocate a zeroed radix node, point the entry at it with
only `V` set, and record the new frame in `frames`.  The returned `Nat` is
`pte.ppn()` read back from the slot, as in the source. -/
def findCreateStep (σ : KState) (pt : PageTable) (p i : Nat) :
    Option (Nat × KState × PageTable) :=
  if pteIsValid (σ.mem.pte p i) then
    some (ptePpn (σ.mem.pte p i), σ, pt)
  else
    match frame_alloc σ with
    | none => none
    | some (f, σ1) =>
      let σ2 : KState := { σ1 with mem := writePte σ1.mem p i (pteNew f PTE_V) }
      some (ptePpn (σ2.mem.pte p i), σ2, { pt with frames := pt.frames ++ [f] })

/-- Walk `PageTable::find_pte_create`: the 3-level walk, allocating missing
intermediate nodes; returns the location `(frame, slot)` of the leaf
entry.  `none` is the fatal `frame_alloc().unwrap()` failure. -/
def find_pte_create (σ : KState) (pt : PageTable) (vpn : Nat) :
    Option ((Nat × Nat) × KState × PageTable) :=
  match findCreateStep σ pt pt.root_ppn (vpnIndex vpn 0) with
  | none => none
  | some (p1, σ1, pt1) =>
    match findCreateStep σ1 pt1 p1 (vpnIndex vpn 1) with
    | none => none
    | some (p2, σ2, pt2) => some ((p2, vpnIndex vpn 2), σ2, pt2)

/-- Walk `PageTable::find_pte`: the same walk without allocation; `none` as soon
as an intermediate entry is invalid.  The leaf entry is returned without a
validity check, exactly as in the source. -/
def find_pte (σ : KState) (pt : PageTable) (vpn : Nat) : Option Nat :=
  if pteIsValid (σ.mem.pte pt.root_ppn (vpnIndex vpn 0)) then
    if pteIsValid (σ.mem.pte (ptePpn (σ.mem.pte pt.root_ppn (vpnIndex vpn 0)))
        (vpnIndex vpn 1)) then
      some (σ.mem.pte
        (ptePpn (σ.mem.pte (ptePpn (σ.mem.pte pt.root_ppn (vpnIndex vpn 0)))
          (vpnIndex vpn 1)))
        (vpnIndex vpn 2))
    else none
  else none

/-- Lookup `PageTable::translate`: copy of the leaf entry found by `find_pte`. -/
def PageTable.translate (σ : KState) (pt : PageTable) (vpn : Nat) : Option Nat :=
  (find_pte σ pt vpn).map (fun pte => pte)

/-- Operation `PageTable::map`: create/find the leaf slot, assert it is invalid
(`none` models the "is mapped before mapping" panic), then write
`PageTableEntry::new(ppn, flags | V)`. -/
def PageTable.map (σ : KState) (pt : PageTable) (vpn ppn flags : Nat) :
    Option (KState × PageTable) :=
  match find_pte_create σ pt vpn with
  | none => none
  | some ((p, i), σ1, pt1) =>
    if pteIsValid (σ1.mem.pte p i) then none
    else some ({ σ1 with mem := writePte σ1.mem p i (pteNew ppn (flags ||| PTE_V)) }, pt1)

/-- Operation `PageTable::unmap`: create/find the leaf slot, assert it is valid
(`none` models the "is invalid before unmapping" panic), then write the
empty entry. -/
def PageTable.unmap (σ : KState) (pt : PageTable) (vpn : Nat) :
    Option (KState × PageTable) :=
  match find_pte_create σ pt vpn with
  | none => none
  | some ((p, i), σ1, pt1) =>
    if pteIsValid (σ1.mem.pte p i) then
      some ({ σ1 with mem := writePte σ1.mem p i pteEmpty }, pt1)
    else none

/-- Constructor `PageTable::new`: allocate (and own) the root radix node. -/
def PageTable.new (σ : KState) : Option (KState × PageTable) :=
  match frame_alloc σ with
  | none => none
  | some (f, σ1) => some (σ1, { root_ppn := f, frames := [f] })

/-- Encoding `PageTable::token`: `8usize << 60 | self.root_ppn.0`. -/
def PageTable.token (pt : PageTable) : Nat := (8 <<< 60) ||| pt.root_ppn

/-- Constructor `PageTable::from_token`: root from the low 44 bits, owning no frames. -/
def PageTable.from_token (satp : Nat) : PageTable :=
  { root_ppn := satp &&& ((1 <<< 44) - 1), frames := [] }

theorem from_token_token {r : Nat} (h : r < 2 ^ 44) :
    ((8 <<< 60) ||| r) &&& ((1 <<< 44) - 1) = r := by
  rw [show (1 <<< 44 : Nat) = 2 ^ 44 from by rw [Nat.shiftLeft_eq, Nat.one_mul],
    Nat.and_pow_two_sub_one_eq_mod, lor_mod_two_pow]
  have h0 : (8 <<< 60 : Nat) % 2 ^ 44 = 0 := by
    rw [Nat.shiftLeft_eq]
    rw [show (8 : Nat) * 2 ^ 60 = (8 * 2 ^ 16) * 2 ^ 44 from by ring]
    exact Nat.mul_mod_left _ _
  rw [h0, Nat.mod_eq_of_lt h]
  exact Nat.zero_or r

theorem find_pte_root_congr (σ : KState) (pt1 pt2 : PageTable) (vpn : Nat)
    (h : pt1.root_ppn = pt2.root_ppn) :
    find_pte σ pt1 vpn = find_pte σ pt2 vpn := by
  simp only [find_pte, h]

/-- C7 — `token()` is the mode tag 8 in the top bits OR-ed with the root
frame number, `from_token(token())` reconstructs the same root, and the
reconstructed table's `find_pte`/`translate` agree with the original's on
every vpn. -/
theorem C7_token_roundtrip (σ : KState) (pt : PageTable)
    (h : pt.root_ppn < 2 ^ 44) :
    pt.token = (8 <<< 60) ||| pt.root_ppn ∧
      (PageTable.from_token pt.token).root_ppn = pt.root_ppn ∧
      ∀ vpn,
        find_pte σ (PageTable.from_token pt.token) vpn = find_pte σ pt vpn ∧
          PageTable.translate σ (PageTable.from_token pt.token) vpn =
            PageTable.translate σ pt vpn := by
  have hroot : (PageTable.from_token pt.token).root_ppn = pt.root_ppn := by
    simp only [PageTable.from_token, PageTable.token]
    exact from_token_token h
  refine ⟨rfl, hroot, fun vpn => ?_⟩
  have hfind := find_pte_root_congr σ (PageTable.from_token pt.token) pt vpn hroot
  exact ⟨hfind, by simp only [PageTable.translate, hfind]⟩

/-- Witness for C7: a table with root frame 5 and one concrete vpn. -/
theorem C7_token_roundtrip_witness :
    (PageTable.from_token (PageTable.token ⟨5, [5]⟩)).root_ppn =
        PageTable.root_ppn ⟨5, [5]⟩ ∧
      find_pte ⟨⟨fun _ _ => 0, fun _ _ => 0⟩, ⟨0, 0, []⟩⟩
          (PageTable.from_token (PageTable.token ⟨5, [5]⟩)) 3 =
        find_pte ⟨⟨fun _ _ => 0, fun _ _ => 0⟩, ⟨0, 0, []⟩⟩ ⟨5, [5]⟩ 3 :=
  ⟨(C7_token_roundtrip ⟨⟨fun _ _ => 0, fun _ _ => 0⟩, ⟨0, 0, []⟩⟩ ⟨5, [5]⟩
      (by norm_num)).2.1,
    ((C7_token_roundtrip ⟨⟨fun _ _ => 0, fun _ _ => 0⟩, ⟨0, 0, []⟩⟩ ⟨5, [5]⟩
      (by norm_num)).2.2 3).1⟩

/-! ## Walk-path well-formedness -/

theorem pteIsValid_zero : pteIsValid 0 = false := by decide

/-- Radix nodes already reached by the walk for `vpn` from `pt.root_ppn`. -/
def walkE0 (σ : KState) (pt : PageTable) (vpn : Nat) : Nat :=
  σ.mem.pte pt.root_ppn (vpnIndex vpn 0)

def walkP1 (σ : KState) (pt : PageTable) (vpn : Nat) : Nat :=
  ptePpn (walkE0 σ pt vpn)

def walkE1 (σ : KState) (pt : PageTable) (vpn : Nat) : Nat :=
  σ.mem.pte (walkP1 σ pt vpn) (vpnIndex vpn 1)

def walkP2 (σ : KState) (pt : PageTable) (vpn : Nat) : Nat :=
  ptePpn (walkE1 σ pt vpn)

/-- Well-formedness of the walk path for `vpn`, as holds in every reachable
kernel state: the root and the radix nodes already on the path are not
frames the allocator can still hand out, and the path nodes are pairwise
distinct. -/
def WalkFresh (σ : KState) (pt : PageTable) (vpn : Nat) : Prop :=
  ¬ Avail σ.fa pt.root_ppn ∧
    (pteIsValid (walkE0 σ pt vpn) = true →
      ¬ Avail σ.fa (walkP1 σ pt vpn) ∧ walkP1 σ pt vpn ≠ pt.root_ppn ∧
        (pteIsValid (walkE1 σ pt vpn) = true →
          ¬ Avail σ.fa (walkP2 σ pt vpn) ∧ walkP2 σ pt vpn ≠ pt.root_ppn ∧
            walkP2 σ pt vpn ≠ walkP1 σ pt vpn))

instance (σ : KState) (pt : PageTable) (vpn : Nat) : Decidable (WalkFresh σ pt vpn) := by
  unfold WalkFresh; infer_instance

/-! ## Characterizing one step of `find_pte_create` -/

theorem findCreateStep_spec {σ : KState} {pt : PageTable} {p i nxt : Nat}
    {σ' : KState} {pt' : PageTable} (hinv : FAinv σ.fa)
    (h : findCreateStep σ pt p i = some (nxt, σ', pt')) :
    (pteIsValid (σ.mem.pte p i) = true ∧ nxt = ptePpn (σ.mem.pte p i) ∧
        σ' = σ ∧ pt' = pt) ∨
      (pteIsValid (σ.mem.pte p i) = false ∧
        ∃ f, σ.fa.alloc = some (f, σ'.fa) ∧ Avail σ.fa f ∧ f < 2 ^ 44 ∧
          nxt = f ∧ σ'.mem = writePte (zeroFrame σ.mem f) p i (pteNew f PTE_V) ∧
          pt' = { pt with frames := pt.frames ++ [f] } ∧ FAinv σ'.fa ∧
          (∀ q, Avail σ'.fa q → Avail σ.fa q ∧ q ≠ f)) := by
  cases hv : pteIsValid (σ.mem.pte p i) with
  | true =>
    left
    rw [findCreateStep, if_pos hv, Option.some.injEq] at h
    exact ⟨rfl, (congrArg (fun x => x.1) h).symm,
      (congrArg (fun x => x.2.1) h).symm, (congrArg (fun x => x.2.2) h).symm⟩
  | false =>
    right
    rcases ha : frame_alloc σ with _ | ⟨f, σa⟩
    · rw [findCreateStep, if_neg (by simp [hv]), ha] at h
      exact absurd h (by simp)
    · rw [findCreateStep, if_neg (by simp [hv]), ha] at h
      simp only [Option.some.injEq] at h
      obtain ⟨hfa, hσa⟩ := frame_alloc_some ha
      obtain ⟨hAf, hf44, hinv', hsub, -, -, -, -⟩ := alloc_spec hinv hfa
      have hn : nxt = ptePpn (pteNew f PTE_V) := by
        have := congrArg (fun x => x.1) h
        simpa [writePte_pte_eq] using this.symm
      have hσ' : σ' = { σa with mem := writePte σa.mem p i (pteNew f PTE_V) } := by
        have := congrArg (fun x => x.2.1) h
        exact this.symm
      have hpt' : pt' = { pt with frames := pt.frames ++ [f] } := by
        have := congrArg (fun x => x.2.2) h
        exact this.symm
      have hppnf : ptePpn (pteNew f PTE_V) = f :=
        ptePpn_pteNew hf44 (by decide)
      refine ⟨rfl, f, ?_, hAf, hf44, hn.trans hppnf, ?_, hpt', ?_, ?_⟩
      · rw [hσ']; exact hfa
      · rw [hσ']; simp only; rw [hσa]
      · rw [hσ']; exact hinv'
      · rw [hσ']; exact hsub

/-! ## Specification of `find_pte_create` on well-formed states -/

theorem fpc_spec {σ : KState} {pt : PageTable} {vpn p i : Nat}
    {σ1 : KState} {pt1 : PageTable}
    (hinv : FAinv σ.fa) (hfresh : WalkFresh σ pt vpn)
    (h : find_pte_create σ pt vpn = some ((p, i), σ1, pt1)) :
    i = vpnIndex vpn 2 ∧ pt1.root_ppn = pt.root_ppn ∧
      (∃ new, pt1.frames = pt.frames ++ new) ∧
      ((σ1 = σ ∧ pt1 = pt) ∨ σ1.mem.pte p i = 0) ∧
      (∀ L, find_pte ⟨writePte σ1.mem p i L, σ1.fa⟩ pt1 vpn = some L) := by
  obtain ⟨hroot_na, hfresh1⟩ := hfresh
  rcases hstep1 : findCreateStep σ pt pt.root_ppn (vpnIndex vpn 0) with _ | ⟨p1, σb, ptb⟩
  · simp only [find_pte_create, hstep1] at h
    exact Option.noConfusion h
  rcases hstep2 : findCreateStep σb ptb p1 (vpnIndex vpn 1) with _ | ⟨p2, σc, ptc⟩
  · simp only [find_pte_create, hstep1, hstep2] at h
    exact Option.noConfusion h
  simp only [find_pte_create, hstep1, hstep2, Option.some.injEq, Prod.mk.injEq] at h
  obtain ⟨⟨hp2p, hi⟩, hσc, hptc⟩ := h
  subst hi
  have hp2p' : p = p2 := hp2p.symm
  subst hp2p'
  have hσc' : σ1 = σc := hσc.symm
  subst hσc'
  have hptc' : pt1 = ptc := hptc.symm
  subst hptc'
  rcases findCreateStep_spec hinv hstep1 with
    ⟨hv0, hp1, hσb, hptb⟩ | ⟨hv0, f0, hfa0, hAf0, hf044, hp1, hσbmem, hptb, hinvb, hsubb⟩
  · -- level 0 entry already valid
    have hσb' : σ = σb := hσb.symm
    subst hσb'
    have hptb' : pt = ptb := hptb.symm
    subst hptb'
    obtain ⟨hp1na, hp1nr, hfresh2⟩ := hfresh1 hv0
    simp only [walkP1, walkE0] at hp1na hp1nr
    subst hp1
    rcases findCreateStep_spec hinv hstep2 with
      ⟨hv1, hp2, hσc2, hptc2⟩ | ⟨hv1, f1, hfa1, hAf1, hf144, hp2, hσcmem, hptc2, hinvc, hsubc⟩
    · -- level 1 entry already valid: no allocation
      have hσc2' : σ = σ1 := hσc2.symm
      subst hσc2'
      have hptc2' : pt = pt1 := hptc2.symm
      subst hptc2'
      have hfr2 := hfresh2 hv1
      simp only [walkP2, walkE1, walkP1, walkE0] at hfr2
      obtain ⟨hp2na, hp2nr, hp2np1⟩ := hfr2
      subst hp2
      refine ⟨rfl, rfl, ⟨[], by simp⟩, Or.inl ⟨rfl, rfl⟩, ?_⟩
      intro L
      have hr0 : (writePte σ.mem
          (ptePpn (σ.mem.pte (ptePpn (σ.mem.pte pt.root_ppn (vpnIndex vpn 0)))
            (vpnIndex vpn 1))) (vpnIndex vpn 2) L).pte
          pt.root_ppn (vpnIndex vpn 0) = σ.mem.pte pt.root_ppn (vpnIndex vpn 0) :=
        writePte_pte_ne _ _ _ _ _ _ (fun hc => hp2nr hc.1.symm)
      have hr1 : (writePte σ.mem
          (ptePpn (σ.mem.pte (ptePpn (σ.mem.pte pt.root_ppn (vpnIndex vpn 0)))
            (vpnIndex vpn 1))) (vpnIndex vpn 2) L).pte
          (ptePpn (σ.mem.pte pt.root_ppn (vpnIndex vpn 0))) (vpnIndex vpn 1) =
            σ.mem.pte (ptePpn (σ.mem.pte pt.root_ppn (vpnIndex vpn 0)))
              (vpnIndex vpn 1) :=
        writePte_pte_ne _ _ _ _ _ _ (fun hc => hp2np1 hc.1.symm)
      have hr2 : (writePte σ.mem
          (ptePpn (σ.mem.pte (ptePpn (σ.mem.pte pt.root_ppn (vpnIndex vpn 0)))
            (vpnIndex vpn 1))) (vpnIndex vpn 2) L).pte
          (ptePpn (σ.mem.pte (ptePpn (σ.mem.pte pt.root_ppn (vpnIndex vpn 0)))
            (vpnIndex vpn 1))) (vpnIndex vpn 2) = L := writePte_pte_eq _ _ _ _
      rw [find_pte]
      rw [hr0, hv0, if_pos rfl, hr1, hv1, if_pos rfl, hr2]
    · -- level 1 entry invalid: allocate one radix node
      subst hp2
      subst hptc2
      have hpnr : p ≠ pt.root_ppn := fun hc => hroot_na (hc ▸ hAf1)
      have hpnp1 : p ≠ ptePpn (σ.mem.pte pt.root_ppn (vpnIndex vpn 0)) :=
        fun hc => hp1na (hc ▸ hAf1)
      have hleaf : σ1.mem.pte p (vpnIndex vpn 2) = 0 := by
        rw [hσcmem, writePte_pte_ne _ _ _ _ _ _ (fun hc => hpnp1 hc.1),
          zeroFrame_pte_eq]
      refine ⟨rfl, rfl, ⟨[p], rfl⟩, Or.inr hleaf, ?_⟩
      intro L
      have hcongr := find_pte_root_congr ⟨writePte σ1.mem p (vpnIndex vpn 2) L, σ1.fa⟩
        { pt with frames := pt.frames ++ [p] } pt vpn rfl
      rw [hcongr]
      have hr0 : (writePte σ1.mem p (vpnIndex vpn 2) L).pte pt.root_ppn
          (vpnIndex vpn 0) = σ.mem.pte pt.root_ppn (vpnIndex vpn 0) := by
        rw [writePte_pte_ne _ _ _ _ _ _ (fun hc => hpnr hc.1.symm), hσcmem,
          writePte_pte_ne _ _ _ _ _ _ (fun hc => hp1nr hc.1.symm),
          zeroFrame_pte_ne _ _ _ _ (fun hc => hpnr hc.symm)]
      have hr1 : (writePte σ1.mem p (vpnIndex vpn 2) L).pte
          (ptePpn (σ.mem.pte pt.root_ppn (vpnIndex vpn 0))) (vpnIndex vpn 1) =
            pteNew p PTE_V := by
        rw [writePte_pte_ne _ _ _ _ _ _ (fun hc => hpnp1 hc.1.symm), hσcmem,
          writePte_pte_eq]
      have hr2 : (writePte σ1.mem p (vpnIndex vpn 2) L).pte p
          (vpnIndex vpn 2) = L := writePte_pte_eq _ _ _ _
      rw [find_pte]
      rw [hr0, hv0, if_pos rfl, hr1, pteIsValid_pteNew_odd (by decide),
        if_pos rfl, ptePpn_pteNew hf144 (by decide), hr2]
  · -- level 0 entry invalid: two allocations
    subst hp1
    subst hptb
    have hp1nr : p1 ≠ pt.root_ppn := fun hc => hroot_na (hc ▸ hAf0)
    have hv1' : pteIsValid (σb.mem.pte p1 (vpnIndex vpn 1)) = false := by
      rw [hσbmem, writePte_pte_ne _ _ _ _ _ _ (fun hc => hp1nr hc.1),
        zeroFrame_pte_eq]
      exact pteIsValid_zero
    rcases findCreateStep_spec hinvb hstep2 with
      ⟨hv1, hp2, hσc2, hptc2⟩ | ⟨hv1, f1, hfa1, hAf1b, hf144, hp2, hσcmem, hptc2, hinvc, hsubc⟩
    · rw [hv1'] at hv1
      exact Bool.noConfusion hv1
    · subst hp2
      subst hptc2
      obtain ⟨hAf1, hpnp1⟩ := hsubb p hAf1b
      have hpnr : p ≠ pt.root_ppn := fun hc => hroot_na (hc ▸ hAf1)
      have hleaf : σ1.mem.pte p (vpnIndex vpn 2) = 0 := by
        rw [hσcmem, writePte_pte_ne _ _ _ _ _ _ (fun hc => hpnp1 hc.1),
          zeroFrame_pte_eq]
      refine ⟨rfl, rfl, ⟨[p1, p], by simp⟩, Or.inr hleaf, ?_⟩
      intro L
      have hcongr := find_pte_root_congr ⟨writePte σ1.mem p (vpnIndex vpn 2) L, σ1.fa⟩
        { { pt with frames := pt.frames ++ [p1] } with
            frames := ({ pt with frames := pt.frames ++ [p1] } : PageTable).frames ++ [p] }
        pt vpn rfl
      rw [hcongr]
      have hr0 : (writePte σ1.mem p (vpnIndex vpn 2) L).pte pt.root_ppn
          (vpnIndex vpn 0) = pteNew p1 PTE_V := by
        rw [writePte_pte_ne _ _ _ _ _ _ (fun hc => hpnr hc.1.symm), hσcmem,
          writePte_pte_ne _ _ _ _ _ _ (fun hc => hp1nr hc.1.symm),
          zeroFrame_pte_ne _ _ _ _ (fun hc => hpnr hc.symm), hσbmem,
          writePte_pte_eq]
      have hr1 : (writePte σ1.mem p (vpnIndex vpn 2) L).pte p1
          (vpnIndex vpn 1) = pteNew p PTE_V := by
        rw [writePte_pte_ne _ _ _ _ _ _ (fun hc => hpnp1 hc.1.symm), hσcmem,
          writePte_pte_eq]
      have hr2 : (writePte σ1.mem p (vpnIndex vpn 2) L).pte p
          (vpnIndex vpn 2) = L := writePte_pte_eq _ _ _ _
      rw [find_pte]
      rw [hr0, pteIsValid_pteNew_odd (by decide), if_pos rfl,
        ptePpn_pteNew hf044 (by decide), hr1,
        pteIsValid_pteNew_odd (by decide), if_pos rfl,
        ptePpn_pteNew hf144 (by decide), hr2]

theorem findCreateStep_valid {σ : KState} {pt : PageTable} {p i : Nat}
    (h : pteIsValid (σ.mem.pte p i) = true) :
    findCreateStep σ pt p i = some (ptePpn (σ.mem.pte p i), σ, pt) := by
  rw [findCreateStep, if_pos h]

/-- C1 — the owned frame collection never shrinks: a (non-fatal) `unmap`
leaves `frames` unchanged, and a (non-fatal) `map` only appends to it
(on-demand node creation); `find_pte`/`translate` take the table immutably
(they are pure functions of the state in this model) and cannot touch it. -/
theorem C1_frames_stable (σ : KState) (pt : PageTable) (vpn ppn flags : Nat)
    (hinv : FAinv σ.fa) (hfresh : WalkFresh σ pt vpn) :
    (PageTable.unmap σ pt vpn).elim True (fun r => r.2.frames = pt.frames) ∧
      (PageTable.map σ pt vpn ppn flags).elim True
        (fun r => pt.frames <+: r.2.frames) := by
  constructor
  · rcases hu : PageTable.unmap σ pt vpn with _ | ⟨σ', pt'⟩
    · trivial
    · rcases hf : find_pte_create σ pt vpn with _ | ⟨⟨p, i⟩, σ1, pt1⟩
      · simp only [PageTable.unmap, hf] at hu
        exact Option.noConfusion hu
      · simp only [PageTable.unmap, hf] at hu
        obtain ⟨hi, hroot, ⟨new, hnew⟩, hdisj, hwrite⟩ := fpc_spec hinv hfresh hf
        by_cases hv : pteIsValid (σ1.mem.pte p i) = true
        · rw [if_pos hv, Option.some.injEq] at hu
          have hpt' : pt' = pt1 := (congrArg (fun x => x.2) hu).symm
          rcases hdisj with ⟨hσeq, hpteq⟩ | hzero
          · simp only [Option.elim]
            rw [hpt', hpteq]
          · rw [hzero] at hv
            rw [pteIsValid_zero] at hv
            exact Bool.noConfusion hv
        · rw [if_neg hv] at hu
          exact Option.noConfusion hu
  · rcases hm : PageTable.map σ pt vpn ppn flags with _ | ⟨σ', pt'⟩
    · trivial
    · rcases hf : find_pte_create σ pt vpn with _ | ⟨⟨p, i⟩, σ1, pt1⟩
      · simp only [PageTable.map, hf] at hm
        exact Option.noConfusion hm
      · simp only [PageTable.map, hf] at hm
        obtain ⟨hi, hroot, ⟨new, hnew⟩, hdisj, hwrite⟩ := fpc_spec hinv hfresh hf
        by_cases hv : pteIsValid (σ1.mem.pte p i) = true
        · rw [if_pos hv] at hm
          exact Option.noConfusion hm
        · rw [if_neg hv, Option.some.injEq] at hm
          have hpt' : pt' = pt1 := (congrArg (fun x => x.2) hm).symm
          simp only [Option.elim]
          rw [hpt', hnew]
          exact List.prefix_append _ _

/-- A concrete well-formed kernel state for witnesses: all-zero memory,
allocator over frames `[10, 12)`, a table rooted at frame 0. -/
def σW : KState := ⟨⟨fun _ _ => 0, fun _ _ => 0⟩, ⟨10, 12, []⟩⟩

def ptW : PageTable := ⟨0, [0]⟩

/-- Witness for C1 at `σW`/`ptW`, vpn 0, mapping frame 7 with flags 6. -/
theorem C1_frames_stable_witness :
    (PageTable.unmap σW ptW 0).elim True (fun r => r.2.frames = ptW.frames) ∧
      (PageTable.map σW ptW 0 7 6).elim True
        (fun r => ptW.frames <+: r.2.frames) :=
  C1_frames_stable σW ptW 0 7 6 (by decide) (by decide)

/-- C5 — on a well-formed state, a successful `map(vpn, ppn, flags)`
followed by `translate(vpn)` yields exactly the written PTE, whose frame
number is `ppn` and whose flags are `flags | V`; and `map` on a vpn whose
leaf entry is already valid is fatal. -/
theorem C5_map_translate (σ : KState) (pt : PageTable) (vpn ppn flags : Nat)
    (hinv : FAinv σ.fa) (hfresh : WalkFresh σ pt vpn)
    (hppn : ppn < 2 ^ 44) (hflags : flags < 256) :
    (PageTable.map σ pt vpn ppn flags).elim True (fun r =>
        PageTable.translate r.1 r.2 vpn = some (pteNew ppn (flags ||| PTE_V)) ∧
          ptePpn (pteNew ppn (flags ||| PTE_V)) = ppn ∧
          pteFlags (pteNew ppn (flags ||| PTE_V)) = flags ||| PTE_V) ∧
      (PageTable.translate σ pt vpn).elim True (fun e =>
        pteIsValid e = true → PageTable.map σ pt vpn ppn flags = none) := by
  have hlt1024 : flags ||| PTE_V < 1024 := by
    have h := Nat.or_lt_two_pow (x := flags) (y := PTE_V) (n := 10)
      (by omega) (by decide)
    simpa using h
  have hlt256 : flags ||| PTE_V < 256 := by
    have h := Nat.or_lt_two_pow (x := flags) (y := PTE_V) (n := 8)
      (by omega) (by decide)
    simpa using h
  constructor
  · rcases hm : PageTable.map σ pt vpn ppn flags with _ | ⟨σ', pt'⟩
    · trivial
    · rcases hf : find_pte_create σ pt vpn with _ | ⟨⟨p, i⟩, σ1, pt1⟩
      · simp only [PageTable.map, hf] at hm
        exact Option.noConfusion hm
      · simp only [PageTable.map, hf] at hm
        obtain ⟨hi, hroot, ⟨new, hnew⟩, hdisj, hwrite⟩ := fpc_spec hinv hfresh hf
        by_cases hv : pteIsValid (σ1.mem.pte p i) = true
        · rw [if_pos hv] at hm
          exact Option.noConfusion hm
        · rw [if_neg hv, Option.some.injEq] at hm
          have hσ' :
              σ' = { σ1 with mem := writePte σ1.mem p i (pteNew ppn (flags ||| PTE_V)) } :=
            (congrArg (fun x => x.1) hm).symm
          have hpt' : pt' = pt1 := (congrArg (fun x => x.2) hm).symm
          simp only [Option.elim]
          refine ⟨?_, ptePpn_pteNew hppn hlt1024, pteFlags_pteNew hlt256⟩
          rw [hσ', hpt', PageTable.translate, hwrite (pteNew ppn (flags ||| PTE_V))]
          rfl
  · rcases hfp : find_pte σ pt vpn with _ | e
    · simp only [PageTable.translate, hfp, Option.map]
      trivial
    · simp only [PageTable.translate, hfp, Option.map, Option.elim]
      intro hval
      by_cases hv0 : pteIsValid (σ.mem.pte pt.root_ppn (vpnIndex vpn 0)) = true
      · by_cases hv1 : pteIsValid (σ.mem.pte
            (ptePpn (σ.mem.pte pt.root_ppn (vpnIndex vpn 0))) (vpnIndex vpn 1)) = true
        · have hleaf : σ.mem.pte
              (ptePpn (σ.mem.pte (ptePpn (σ.mem.pte pt.root_ppn (vpnIndex vpn 0)))
                (vpnIndex vpn 1))) (vpnIndex vpn 2) = e := by
            rw [find_pte, if_pos hv0, if_pos hv1, Option.some.injEq] at hfp
            exact hfp
          simp only [PageTable.map, find_pte_create, findCreateStep_valid hv0,
            findCreateStep_valid hv1]
          rw [hleaf, if_pos hval]
        · rw [find_pte, if_pos hv0, if_neg hv1] at hfp
          exact Option.noConfusion hfp
      · rw [find_pte, if_neg hv0] at hfp
        exact Option.noConfusion hfp

/-- Witness for C5 at `σW`/`ptW`, vpn 0, frame 7, flags 6. -/
theorem C5_map_translate_witness :
    (PageTable.map σW ptW 0 7 6).elim True (fun r =>
        PageTable.translate r.1 r.2 0 = some (pteNew 7 (6 ||| PTE_V)) ∧
          ptePpn (pteNew 7 (6 ||| PTE_V)) = 7 ∧
          pteFlags (pteNew 7 (6 ||| PTE_V)) = 6 ||| PTE_V) ∧
      (PageTable.translate σW ptW 0).elim True (fun e =>
        pteIsValid e = true → PageTable.map σW ptW 0 7 6 = none) :=
  C5_map_translate σW ptW 0 7 6 (by decide) (by decide) (by decide) (by decide)

/-! ## `translated_byte_buffer` -/

/-- Modelled from the spec: `VirtAddr::floor` (address.rs is not in the
source tree) — the containing virtual frame number, rounding down. -/
def vaFloor (a : Nat) : Nat := a / 4096

/-- Modelled from the spec: `VirtAddr::page_offset` — the low 12 bits. -/
def vaPageOffset (a : Nat) : Nat := a % 4096

/-- Modelled from the spec: `VirtPageNum::step` (`StepByOne`) — advance to
the next virtual frame number. -/
def vpnStep (v : Nat) : Nat := v + 1

/-- Modelled from the spec: `VirtAddr::from(VirtPageNum)` — frame number
shifted back to a byte address. -/
def vpnToVa (v : Nat) : Nat := v * 4096

/-- The slice `&ppn.get_bytes_array()[a..b]` as the list of its bytes. -/
def frameSlice (σ : KState) (ppn a b : Nat) : List Nat :=
  (List.range (b - a)).map (fun k => σ.mem.byte ppn (a + k))

/-- The `while start < end` loop of `translated_byte_buffer`.  `none` is
the fatal `translate(vpn).unwrap()` failure. -/
def translated_byte_buffer_go (σ : KState) (pt : PageTable) (start end_ : Nat) :
    Option (List (List Nat)) :=
  if h : start < end_ then
    match PageTable.translate σ pt (vaFloor start) with
    | none => none
    | some e =>
      let ppn := ptePpn e
      let end_va := min (vpnToVa (vpnStep (vaFloor start))) end_
      let slice := if vaPageOffset end_va = 0 then
          frameSlice σ ppn (vaPageOffset start) 4096
        else frameSlice σ ppn (vaPageOffset start) (vaPageOffset end_va)
      match translated_byte_buffer_go σ pt end_va end_ with
      | none => none
      | some rest => some (slice :: rest)
  else some []
termination_by end_ - start
decreasing_by
  have h1 : start < vpnToVa (vpnStep (vaFloor start)) := by
    simp only [vpnToVa, vpnStep, vaFloor]
    have h2 := Nat.div_add_mod start 4096
    have h3 : start % 4096 < 4096 := Nat.mod_lt _ (by norm_num)
    omega
  simp only [vpnToVa, vpnStep, vaFloor] at h1 ⊢
  omega

/-- Function `translated_byte_buffer(token, ptr, len)`. -/
def translated_byte_buffer (σ : KState) (token ptr len : Nat) :
    Option (List (List Nat)) :=
  translated_byte_buffer_go σ (PageTable.from_token token) ptr (ptr + len)

/-- C10 — with `len = 0` the loop body never runs: the buffer is an empty
sequence of slices for every state, token and pointer, mapped or not. -/
theorem C10_zero_len (σ : KState) (token ptr : Nat) :
    translated_byte_buffer σ token ptr 0 = some [] := by
  rw [translated_byte_buffer, translated_byte_buffer_go]
  simp

/-- The byte a virtual address reads through the table's translation. -/
def vByte (σ : KState) (pt : PageTable) (a : Nat) : Nat :=
  σ.mem.byte (ptePpn ((PageTable.translate σ pt (vaFloor a)).getD 0)) (vaPageOffset a)

theorem tbb_go_spec (n : Nat) : ∀ (σ : KState) (pt : PageTable) (s e : Nat),
    e - s = n → s < e →
    (∀ v, s / 4096 ≤ v → v ≤ (e - 1) / 4096 →
      (PageTable.translate σ pt v).isSome) →
    ∃ sl, translated_byte_buffer_go σ pt s e = some sl ∧
      sl.length = (e - 1) / 4096 - s / 4096 + 1 ∧
      (sl.map List.length).sum = e - s ∧
      sl.flatten = (List.range (e - s)).map (fun k => vByte σ pt (s + k)) := by
  induction n using Nat.strong_induction_on with
  | _ n ih =>
    intro σ pt s e hn hse hall
    have hqle : s / 4096 ≤ (e - 1) / 4096 := Nat.div_le_div_right (by omega)
    obtain ⟨e0, he0⟩ := Option.isSome_iff_exists.mp (hall (s / 4096) le_rfl hqle)
    by_cases hcase : e ≤ (s / 4096 + 1) * 4096
    · -- the range ends inside this frame: last iteration
      have hmin : min ((s / 4096 + 1) * 4096) e = e := Nat.min_eq_right hcase
      have hbase : translated_byte_buffer_go σ pt e e = some [] := by
        rw [translated_byte_buffer_go]
        simp
      rw [translated_byte_buffer_go, dif_pos hse]
      simp only [vaFloor, vpnStep, vpnToVa, vaPageOffset, he0, hmin, hbase]
      by_cases hz : e % 4096 = 0
      · rw [if_pos hz]
        have hee : e = (s / 4096 + 1) * 4096 := by omega
        refine ⟨_, rfl, ?_, ?_, ?_⟩
        · simp only [List.length_cons, List.length_nil, frameSlice, List.length_map,
            List.length_range]
          omega
        · simp only [List.map_cons, List.map_nil, List.sum_cons, List.sum_nil,
            frameSlice, List.length_map, List.length_range]
          omega
        · simp only [List.flatten_cons, List.flatten_nil, List.append_nil, frameSlice]
          apply List.ext_getElem
          · simp only [List.length_map, List.length_range]
            omega
          · intro k h1 h2
            simp only [List.getElem_map, List.getElem_range]
            have hklt : k < 4096 - s % 4096 := by
              simpa using h1
            have hdiv : (s + k) / 4096 = s / 4096 := by omega
            have hmod : (s + k) % 4096 = s % 4096 + k := by omega
            rw [vByte, vaFloor, vaPageOffset, hdiv, hmod, he0]
            rfl
      · rw [if_neg hz]
        have helt : e < (s / 4096 + 1) * 4096 := by omega
        refine ⟨_, rfl, ?_, ?_, ?_⟩
        · simp only [List.length_cons, List.length_nil, frameSlice, List.length_map,
            List.length_range]
          omega
        · simp only [List.map_cons, List.map_nil, List.sum_cons, List.sum_nil,
            frameSlice, List.length_map, List.length_range]
          omega
        · simp only [List.flatten_cons, List.flatten_nil, List.append_nil, frameSlice]
          apply List.ext_getElem
          · simp only [List.length_map, List.length_range]
            omega
          · intro k h1 h2
            simp only [List.getElem_map, List.getElem_range]
            have hklt : k < e % 4096 - s % 4096 := by
              simpa using h1
            have hdiv : (s + k) / 4096 = s / 4096 := by omega
            have hmod : (s + k) % 4096 = s % 4096 + k := by omega
            rw [vByte, vaFloor, vaPageOffset, hdiv, hmod, he0]
            rfl
    · -- the range continues past this frame
      have hlt : (s / 4096 + 1) * 4096 < e := by omega
      have hmin : min ((s / 4096 + 1) * 4096) e = (s / 4096 + 1) * 4096 :=
        Nat.min_eq_left (by omega)
      have hrecall : ∀ v, (s / 4096 + 1) * 4096 / 4096 ≤ v → v ≤ (e - 1) / 4096 →
          (PageTable.translate σ pt v).isSome := by
        intro v h1 h2
        exact hall v (by omega) h2
      obtain ⟨sl, hgo, hlen, hsum, hflat⟩ :=
        ih (e - (s / 4096 + 1) * 4096) (by omega) σ pt ((s / 4096 + 1) * 4096) e
          rfl (by omega) hrecall
      have hz : (s / 4096 + 1) * 4096 % 4096 = 0 := by omega
      rw [translated_byte_buffer_go, dif_pos hse]
      simp only [vaFloor, vpnStep, vpnToVa, vaPageOffset, he0, hmin, hgo]
      rw [if_pos hz]
      have hq1 : (s / 4096 + 1) * 4096 / 4096 = s / 4096 + 1 := by omega
      have hgeq1 : s / 4096 + 1 ≤ (e - 1) / 4096 := by omega
      refine ⟨_, rfl, ?_, ?_, ?_⟩
      · simp only [List.length_cons, hlen, hq1]
        omega
      · simp only [List.map_cons, List.sum_cons, hsum, frameSlice,
          List.length_map, List.length_range]
        omega
      · simp only [List.flatten_cons, hflat, frameSlice]
        have hsplit : e - s = (4096 - s % 4096) + (e - (s / 4096 + 1) * 4096) := by
          omega
        rw [hsplit, List.range_add, List.map_append, List.map_map]
        congr 1
        · apply List.ext_getElem
          · simp only [List.length_map, List.length_range]
          · intro k h1 h2
            simp only [List.getElem_map, List.getElem_range]
            have hklt : k < 4096 - s % 4096 := by
              simpa using h1
            have hdiv : (s + k) / 4096 = s / 4096 := by omega
            have hmod : (s + k) % 4096 = s % 4096 + k := by omega
            rw [vByte, vaFloor, vaPageOffset, hdiv, hmod, he0]
            rfl
        · apply List.map_congr_left
          intro k hk
          simp only [Function.comp]
          congr 1
          omega

theorem tbb_go_none_iff (n : Nat) : ∀ (σ : KState) (pt : PageTable) (s e : Nat),
    e - s = n → s < e →
    (translated_byte_buffer_go σ pt s e = none ↔
      ∃ v, s / 4096 ≤ v ∧ v ≤ (e - 1) / 4096 ∧
        PageTable.translate σ pt v = none) := by
  induction n using Nat.strong_induction_on with
  | _ n ih =>
    intro σ pt s e hn hse
    constructor
    · intro hnone
      by_contra hc
      push_neg at hc
      have hall : ∀ v, s / 4096 ≤ v → v ≤ (e - 1) / 4096 →
          (PageTable.translate σ pt v).isSome := by
        intro v h1 h2
        rcases hv : PageTable.translate σ pt v with _ | e0
        · exact absurd hv (hc v h1 h2)
        · rfl
      obtain ⟨sl, hgo, -, -, -⟩ := tbb_go_spec (e - s) σ pt s e rfl hse hall
      rw [hgo] at hnone
      exact Option.noConfusion hnone
    · intro ⟨v, hv1, hv2, hvnone⟩
      rcases he0 : PageTable.translate σ pt (s / 4096) with _ | e0
      · rw [translated_byte_buffer_go, dif_pos hse]
        simp only [vaFloor, he0]
      · have hvne : v ≠ s / 4096 := by
          intro hc
          rw [hc, he0] at hvnone
          exact Option.noConfusion hvnone
        have hv1' : s / 4096 + 1 ≤ v := by omega
        have hlt : (s / 4096 + 1) * 4096 < e := by
          have : s / 4096 + 1 ≤ (e - 1) / 4096 := by omega
          omega
        have hmin : min ((s / 4096 + 1) * 4096) e = (s / 4096 + 1) * 4096 :=
          Nat.min_eq_left (by omega)
        have hrec : translated_byte_buffer_go σ pt ((s / 4096 + 1) * 4096) e = none := by
          rw [ih (e - (s / 4096 + 1) * 4096) (by omega) σ pt _ e rfl (by omega)]
          exact ⟨v, by omega, hv2, hvnone⟩
        rw [translated_byte_buffer_go, dif_pos hse]
        simp only [vaFloor, vpnStep, vpnToVa, vaPageOffset, he0, hmin, hrec]

/-- Counterexample for C8: with the walk intact but the leaf entry empty
(vpn 0 unmapped, e.g. after `unmap`), `translate` still returns the copied
empty entry, its `unwrap` succeeds, and `translated_byte_buffer` silently
produces a view of frame `ppn() = 0` instead of fatal-erroring. -/
def σD : KState :=
  ⟨⟨fun p i => if p = 0 ∧ i = 0 then pteNew 1 PTE_V
      else if p = 1 ∧ i = 0 then pteNew 2 PTE_V else 0,
    fun _ _ => 0⟩, ⟨0, 0, []⟩⟩

theorem C8_counterexample :
    PageTable.translate σD (PageTable.from_token (PageTable.token ⟨0, []⟩)) 0 =
        some pteEmpty ∧
      pteIsValid pteEmpty = false ∧
      translated_byte_buffer σD (PageTable.token ⟨0, []⟩) 0 1 ≠ none := by
  refine ⟨by decide, by decide, ?_⟩
  have hall : ∀ v, 0 / 4096 ≤ v → v ≤ (1 - 1) / 4096 →
      (PageTable.translate σD (PageTable.from_token (PageTable.token ⟨0, []⟩)) v).isSome := by
    intro v h1 h2
    have hv0 : v = 0 := by omega
    subst hv0
    decide
  obtain ⟨sl, hgo, -, -, -⟩ := tbb_go_spec 1
    σD (PageTable.from_token (PageTable.token ⟨0, []⟩)) 0 1 rfl (by norm_num) hall
  rw [translated_byte_buffer, hgo]
  exact Option.noConfusion

/-- C8 (amended) — for `len > 0`, `translated_byte_buffer` fatal-errors iff
the page-table walk of some crossed virtual frame hits a missing
intermediate node (`translate` returns `None`); when every crossed frame's
walk reaches its leaf slot, it returns one slice per crossed frame in
ascending virtual-address order (`(ptr+len-1)/4096 - ptr/4096 + 1` of
them), whose lengths sum to exactly `len` and whose concatenation is the
bytes that the table translates `[ptr, ptr+len)` to.  A present-but-invalid
leaf is not detected (see the counterexample). -/
theorem C8_byte_buffer_spec (σ : KState) (token ptr len : Nat) (hlen : 0 < len) :
    (translated_byte_buffer σ token ptr len = none ↔
      ∃ v, ptr / 4096 ≤ v ∧ v ≤ (ptr + len - 1) / 4096 ∧
        PageTable.translate σ (PageTable.from_token token) v = none) ∧
      ((∀ v, ptr / 4096 ≤ v → v ≤ (ptr + len - 1) / 4096 →
          (PageTable.translate σ (PageTable.from_token token) v).isSome) →
        ∃ sl, translated_byte_buffer σ token ptr len = some sl ∧
          sl.length = (ptr + len - 1) / 4096 - ptr / 4096 + 1 ∧
          (sl.map List.length).sum = len ∧
          sl.flatten = (List.range len).map
            (fun k => vByte σ (PageTable.from_token token) (ptr + k))) := by
  have hse : ptr < ptr + len := by omega
  constructor
  · rw [translated_byte_buffer]
    exact tbb_go_none_iff len σ (PageTable.from_token token) ptr (ptr + len)
      (by omega) hse
  · intro hall
    obtain ⟨sl, hgo, hcnt, hsum, hflat⟩ := tbb_go_spec len σ
      (PageTable.from_token token) ptr (ptr + len) (by omega) hse hall
    refine ⟨sl, ?_, ?_, ?_, ?_⟩
    · rw [translated_byte_buffer, hgo]
    · rw [hcnt]
    · rw [hsum]; omega
    · rw [hflat, show ptr + len - ptr = len from by omega]

/-- A state with vpns 0 and 1 mapped (to frames 20 and 21) for the C8
witness: root 0 → node 1 → node 2 → leaves. -/
def σB : KState :=
  ⟨⟨fun p i => if p = 0 ∧ i = 0 then pteNew 1 PTE_V
      else if p = 1 ∧ i = 0 then pteNew 2 PTE_V
      else if p = 2 ∧ i = 0 then pteNew 20 PTE_V
      else if p = 2 ∧ i = 1 then pteNew 21 PTE_V else 0,
    fun _ _ => 0⟩, ⟨0, 0, []⟩⟩

/-- Witness for C8 on a range spanning exactly two frames
(`[4090, 4102)`): the theorem yields exactly 2 slices summing to 12. -/
theorem C8_byte_buffer_spec_witness :
    ∃ sl, translated_byte_buffer σB (PageTable.token ⟨0, []⟩) 4090 12 = some sl ∧
      sl.length = (4090 + 12 - 1) / 4096 - 4090 / 4096 + 1 ∧
      (sl.map List.length).sum = 12 ∧
      sl.flatten = (List.range 12).map
        (fun k => vByte σB (PageTable.from_token (PageTable.token ⟨0, []⟩)) (4090 + k)) :=
  (C8_byte_buffer_spec σB (PageTable.token ⟨0, []⟩) 4090 12 (by norm_num)).2
    (by
      intro v h1 h2
      have hv2 : v ≤ 1 := by omega
      interval_cases v <;> decide)
